import Mathlib

/-!
# Verification of the tailor pull-request validation pipeline

Shallow embedding of `src/github.rs` (CoreOS tailor): the canonical
pull-request data model, the exemption resolver `find_exemptions`, and the
validation orchestrator `validate_pull_request`.

Modelling conventions:
* Rust `String` becomes Lean `String`; the string algorithms the code uses
  (`starts_with`, `split` on the fixed pattern `"tailor disable"`, `trim`)
  are embedded as executable functions on `List Char`, matching Rust's
  semantics for a non-empty needle (leftmost, non-overlapping matches) and
  ASCII whitespace.
* The GitHub client calls are external I/O: the collaborator-permission
  endpoint (HTTP request, status check and `serde_json` decoding together)
  is a parameter `pl : String → Except String Collaborator`; the expression
  engine `expr::eval` is a parameter
  `ev : String → PullRequest → Except String Bool`.
* `error_chain` errors are modelled by `VError`: errors from exemption
  resolution propagate unchanged (`VError.authority` keeps the message
  intact), expression errors are wrapped with the `chain_err` context
  string, exactly as at lines 105–112 of the source.
* `chrono::DateTime` timestamps are opaque to every claim; they are
  embedded as `Int`.
-/

namespace Tailor

/-- `struct User { login: String }` -/
structure User where
  login : String
deriving DecidableEq, Repr

/-- `struct Author { name, email, date }` (commit authorship metadata). -/
structure Author where
  name : String
  email : String
  date : Int
deriving DecidableEq, Repr

/-- `struct CommitBody { author, committer, message }` -/
structure CommitBody where
  author : Author
  committer : Author
  message : String
deriving DecidableEq, Repr

/-- `struct Commit { sha, commit, author, committer }` -/
structure Commit where
  sha : String
  commit : CommitBody
  author : User
  committer : User
deriving DecidableEq, Repr

/-- `struct Comment { user, body, created_at }` -/
structure Comment where
  user : User
  body : String
  created_at : Int
deriving DecidableEq, Repr

/-- `struct PullRequest { user, title, body, commits, comments }` -/
structure PullRequest where
  user : User
  title : String
  body : String
  commits : List Commit
  comments : List Comment
deriving DecidableEq, Repr

/-- `enum Permission { Admin, Write, Read, None }` -/
inductive Permission where
  | Admin
  | Write
  | Read
  | None
deriving DecidableEq, Repr

/-- `struct Collaborator { permission: Permission }` -/
structure Collaborator where
  permission : Permission
deriving DecidableEq, Repr

/-- One entry of `config::Repo.rules`. Modelled from the spec: the rule
configuration schema (`name`, `description`, `expression` text) is defined
by the external configuration loader (`config.rs` is not part of the core
source); the fields are exactly those `github.rs` reads
(`rule.name`, `rule.expression`, `rule.description`). -/
structure Rule where
  name : String
  description : String
  expression : String
deriving DecidableEq, Repr

/-- `config::Repo`. Modelled from the spec: `github.rs` reads
`repo.owner`, `repo.repo` and `repo.rules`. -/
structure Repo where
  owner : String
  repo : String
  rules : List Rule
deriving DecidableEq, Repr

/-- The two error provenances of `validate_pull_request`'s `error_chain`
result: errors from exemption resolution propagate unchanged (`?` at line
97), expression-evaluation errors carry the `chain_err` context of lines
105–112. -/
inductive VError where
  | authority (msg : String)
  | expression (context : String) (cause : String)
deriving DecidableEq, Repr

/-! ## The string algorithms of `find_exemptions` (lines 124–127, 144) -/

/-- The literal marker `"tailor disable"` used at lines 124–125. -/
def marker : List Char := "tailor disable".data

/-- Fuelled splitter: Rust `str::split("tailor disable")`, scanning left to
right for non-overlapping occurrences of the needle.  The fuel only forces
structural recursion; `splitOnMarker` always supplies enough. -/
def splitOnMarkerF : Nat → List Char → List (List Char)
  | 0, s => [s]
  | _ + 1, [] => [[]]
  | f + 1, c :: rest =>
    if marker.isPrefixOf (c :: rest) then
      [] :: splitOnMarkerF f ((c :: rest).drop marker.length)
    else
      match splitOnMarkerF f rest with
      | [] => [[c]]
      | s :: ss => (c :: s) :: ss

/-- Rust `body.split("tailor disable")` as a list of the segments between
consecutive occurrences of the marker. -/
def splitOnMarker (s : List Char) : List (List Char) :=
  splitOnMarkerF (s.length + 1) s

/-- Rust `str::trim` (leading and trailing whitespace removed). -/
def trimL (s : List Char) : List Char :=
  ((s.dropWhile Char.isWhitespace).reverse.dropWhile Char.isWhitespace).reverse

/-- Line 124: `comment.body.starts_with("tailor disable")`. -/
def startsWithMarker (body : String) : Bool :=
  marker.isPrefixOf body.data

/-- Lines 125–127: `let mut split = body.split("tailor disable");
split.next(); split.next()` — the second element of the split, i.e. the
text between the first occurrence of the marker and the next occurrence
(or the end of the body). -/
def disablePayload (body : String) : Option (List Char) :=
  ((splitOnMarker body.data).drop 1).head?

/-- The text before the first occurrence of the marker (all of `s` when
the marker does not occur).  Specification of the payload extracted by
`disablePayload` for a body of the form `marker ++ rest`. -/
def takeUntilMarker : List Char → List Char
  | [] => []
  | c :: rest =>
    if marker.isPrefixOf (c :: rest) then [] else c :: takeUntilMarker rest

/-- Whether the marker occurs anywhere in `s`. -/
def containsMarkerL : List Char → Bool
  | [] => false
  | c :: rest => marker.isPrefixOf (c :: rest) || containsMarkerL rest

/-! ## `find_exemptions` (lines 120–151) -/

/-- The loop body of `find_exemptions` over `pr.comments`; `pl` is the
collaborator-permission endpoint (lines 128–142: request, HTTP status
check and JSON decoding combined — each failure `bail!`s / propagates). -/
def find_exemptions_list (pl : String → Except String Collaborator) :
    List Comment → Except String (List String)
  | [] => .ok []
  | comment :: cs =>
    if startsWithMarker comment.body then
      match disablePayload comment.body with
      | some disabled_check =>
        match pl comment.user.login with
        | .error e => .error e
        | .ok collaborator =>
          match find_exemptions_list pl cs with
          | .error e => .error e
          | .ok xs =>
            .ok (if collaborator.permission = Permission.Admin then
                   String.mk (trimL disabled_check) :: xs
                 else xs)
      | none => find_exemptions_list pl cs
    else
      find_exemptions_list pl cs

/-- `fn find_exemptions(client, repo, pr) -> Result<Vec<String>>`. -/
def find_exemptions (pl : String → Except String Collaborator)
    (pr : PullRequest) : Except String (List String) :=
  find_exemptions_list pl pr.comments

/-! ## `validate_pull_request` (lines 91–118) -/

/-- Line 114: `format!("Failed {} ({})", rule.name, rule.description)`. -/
def failureMessage (rule : Rule) : String :=
  "Failed " ++ rule.name ++ " (" ++ rule.description ++ ")"

/-- Lines 106–111: the `chain_err` context
`format!(r#"Failed to run "{}" from "{}/{}""#, rule.name, repo.owner, repo.repo)`. -/
def ruleContext (repo : Repo) (rule : Rule) : String :=
  "Failed to run \"" ++ rule.name ++ "\" from \"" ++ repo.owner ++ "/" ++
    repo.repo ++ "\""

/-- Lines 104–116: evaluate each rule in order; an evaluation error aborts
with the chained context; a `false` result appends the failure message. -/
def evalRules (ev : String → PullRequest → Except String Bool)
    (repo : Repo) (pr : PullRequest) : List Rule → Except VError (List String)
  | [] => .ok []
  | rule :: rs =>
    match ev rule.expression pr with
    | .error e => .error (.expression (ruleContext repo rule) e)
    | .ok b =>
      match evalRules ev repo pr rs with
      | .error e => .error e
      | .ok fs => .ok (if b then fs else failureMessage rule :: fs)

/-- `fn validate_pull_request(job, client, repo) -> Result<Vec<String>>`,
starting from the already-fetched `PullRequest` (fetching is external I/O;
any fetch failure aborts before this point). -/
def validate_pull_request (pl : String → Except String Collaborator)
    (ev : String → PullRequest → Except String Bool)
    (repo : Repo) (pr : PullRequest) : Except VError (List String) :=
  match find_exemptions pl pr with
  | .error e => .error (.authority e)
  | .ok exemptions =>
    evalRules ev repo pr
      (repo.rules.filter (fun rule => !exemptions.contains rule.name))

/-! ## Concrete instruments used by witnesses and counterexamples -/

/-- Permission endpoint that always reports an admin collaborator. -/
def plAdmin : String → Except String Collaborator :=
  fun _ => .ok ⟨Permission.Admin⟩

/-- Permission endpoint that always reports a read-only collaborator. -/
def plRead : String → Except String Collaborator :=
  fun _ => .ok ⟨Permission.Read⟩

/-- Permission endpoint whose lookup always fails. -/
def plBoom : String → Except String Collaborator :=
  fun _ => .error "boom"

/-- A pull request with the given comments and no other content. -/
def prWith (comments : List Comment) : PullRequest :=
  ⟨⟨"octocat"⟩, "a title", "a body", [], comments⟩

/-- Decision used to characterize the failure list: did the rule's
expression evaluate to `Except.ok false`? -/
def evalFalse (ev : String → PullRequest → Except String Bool)
    (pr : PullRequest) (rule : Rule) : Bool :=
  match ev rule.expression pr with
  | .ok false => true
  | _ => false

/-! ## General lemmas about the splitter -/

theorem isPrefixOf_self_append (l t : List Char) : l.isPrefixOf (l ++ t) = true := by
  simp [List.isPrefixOf_iff_prefix]

theorem splitF_ne_nil : ∀ (f : Nat) (s : List Char), splitOnMarkerF f s ≠ [] := by
  intro f s
  cases f with
  | zero => simp [splitOnMarkerF]
  | succ f =>
    cases s with
    | nil => simp [splitOnMarkerF]
    | cons c rest =>
      simp only [splitOnMarkerF]
      split
      · simp
      · split <;> simp

theorem splitF_fuel : ∀ (f g : Nat) (s : List Char), s.length < f → s.length < g →
    splitOnMarkerF f s = splitOnMarkerF g s := by
  intro f
  induction f with
  | zero => intro g s h; omega
  | succ f ih =>
    intro g s hf hg
    cases g with
    | zero => omega
    | succ g =>
      cases s with
      | nil => simp [splitOnMarkerF]
      | cons c rest =>
        simp only [splitOnMarkerF]
        cases hp : marker.isPrefixOf (c :: rest) with
        | true =>
          simp only [if_true]
          have hm : marker.length = 14 := by decide
          simp only [List.length_cons] at hf hg
          have hlen : ((c :: rest).drop marker.length).length < f := by
            simp only [List.length_drop, List.length_cons]
            omega
          have hlen2 : ((c :: rest).drop marker.length).length < g := by
            simp only [List.length_drop, List.length_cons]
            omega
          rw [ih g _ hlen hlen2]
        | false =>
          simp only [Bool.false_eq_true, if_false]
          have hlen : rest.length < f := by
            simp only [List.length_cons] at hf; omega
          have hlen2 : rest.length < g := by
            simp only [List.length_cons] at hg; omega
          rw [ih g rest hlen hlen2]

theorem splitF_headq : ∀ (f : Nat) (s : List Char), s.length < f →
    (splitOnMarkerF f s).head? = some (takeUntilMarker s) := by
  intro f
  induction f with
  | zero => intro s h; omega
  | succ f ih =>
    intro s h
    cases s with
    | nil => simp [splitOnMarkerF, takeUntilMarker]
    | cons c rest =>
      simp only [splitOnMarkerF, takeUntilMarker]
      cases hp : marker.isPrefixOf (c :: rest) with
      | true => simp
      | false =>
        simp only [Bool.false_eq_true, if_false]
        have hr : rest.length < f := by
          simp only [List.length_cons] at h; omega
        have hh := ih rest hr
        split
        · rename_i hs
          exact absurd hs (splitF_ne_nil f rest)
        · rename_i s0 ss hs
          rw [hs] at hh
          simp only [List.head?_cons, Option.some.injEq] at hh ⊢
          rw [hh]

theorem splitOnMarker_headq (s : List Char) :
    (splitOnMarker s).head? = some (takeUntilMarker s) :=
  splitF_headq (s.length + 1) s (Nat.lt_succ_self _)

theorem splitF_marker_append (f : Nat) (t : List Char) :
    splitOnMarkerF (f + 1) (marker ++ t) =
      [] :: splitOnMarkerF f ((marker ++ t).drop marker.length) := by
  cases hmt : marker ++ t with
  | nil => exact absurd (List.append_eq_nil.mp hmt).1 (by decide)
  | cons c rest =>
    simp only [splitOnMarkerF]
    rw [if_pos (by rw [← hmt]; exact isPrefixOf_self_append marker t)]

theorem splitOnMarker_marker_append (t : List Char) :
    splitOnMarker (marker ++ t) = [] :: splitOnMarker t := by
  unfold splitOnMarker
  have hlen : (marker ++ t).length = t.length + marker.length := by
    simp [List.length_append]; omega
  rw [hlen, splitF_marker_append, List.drop_left]
  congr 1
  apply splitF_fuel
  · have : 0 < marker.length := by decide
    omega
  · exact Nat.lt_succ_self _

theorem takeUntil_of_no_marker : ∀ (s : List Char), containsMarkerL s = false →
    takeUntilMarker s = s := by
  intro s
  induction s with
  | nil => intro _; rfl
  | cons c rest ih =>
    intro h
    simp only [containsMarkerL, Bool.or_eq_false_iff] at h
    simp only [takeUntilMarker, h.1, Bool.false_eq_true, if_false]
    rw [ih h.2]

theorem marker_head : marker = 't' :: "ailor disable".data := by decide

theorem no_marker_of_whitespace : ∀ (s : List Char),
    (∀ ch ∈ s, ch.isWhitespace = true) → containsMarkerL s = false := by
  intro s
  induction s with
  | nil => intro _; rfl
  | cons c rest ih =>
    intro h
    simp only [containsMarkerL, Bool.or_eq_false_iff]
    constructor
    · cases hp : marker.isPrefixOf (c :: rest) with
      | true =>
        rw [marker_head] at hp
        simp only [List.isPrefixOf, Bool.and_eq_true, beq_iff_eq] at hp
        have hc : c = 't' := hp.1.symm
        have hw : c.isWhitespace = true := h c (List.mem_cons_self c rest)
        rw [hc] at hw
        exact absurd hw (by decide)
      | false => rfl
    · exact ih (fun ch hm => h ch (List.mem_cons_of_mem c hm))

theorem trimL_of_whitespace (s : List Char)
    (h : ∀ ch ∈ s, ch.isWhitespace = true) : trimL s = [] := by
  unfold trimL
  have hd : s.dropWhile Char.isWhitespace = [] :=
    List.dropWhile_eq_nil_iff.mpr h
  rw [hd]
  rfl

/-! ## General lemmas about `find_exemptions_list` -/

theorem startsWithMarker_mk (rest : List Char) :
    startsWithMarker (String.mk (marker ++ rest)) = true :=
  isPrefixOf_self_append marker rest

theorem disablePayload_mk (rest : List Char) :
    disablePayload (String.mk (marker ++ rest)) = some (takeUntilMarker rest) := by
  unfold disablePayload
  show ((splitOnMarker (marker ++ rest)).drop 1).head? = _
  rw [splitOnMarker_marker_append]
  simpa using splitOnMarker_headq rest

theorem startsWith_decomp (b : String) (h : startsWithMarker b = true) :
    ∃ rest, b = String.mk (marker ++ rest) := by
  unfold startsWithMarker at h
  rw [List.isPrefixOf_iff_prefix] at h
  obtain ⟨rest, hrest⟩ := h
  exact ⟨rest, (congrArg String.mk hrest).symm⟩

theorem find_cons_skip (pl : String → Except String Collaborator)
    (c : Comment) (cs : List Comment) (h : startsWithMarker c.body = false) :
    find_exemptions_list pl (c :: cs) = find_exemptions_list pl cs := by
  simp [find_exemptions_list, h]

theorem find_cons_err (pl : String → Except String Collaborator)
    (u : User) (rest : List Char) (t : Int) (cs : List Comment) (e : String)
    (h : pl u.login = .error e) :
    find_exemptions_list pl (⟨u, ⟨marker ++ rest⟩, t⟩ :: cs) = .error e := by
  simp [find_exemptions_list, startsWithMarker_mk, disablePayload_mk, h]

theorem find_cons_ok (pl : String → Except String Collaborator)
    (u : User) (rest : List Char) (t : Int) (cs : List Comment)
    (col : Collaborator) (xs : List String)
    (hpl : pl u.login = .ok col) (hcs : find_exemptions_list pl cs = .ok xs) :
    find_exemptions_list pl (⟨u, ⟨marker ++ rest⟩, t⟩ :: cs) =
      .ok (if col.permission = Permission.Admin
           then String.mk (trimL (takeUntilMarker rest)) :: xs else xs) := by
  simp only [find_exemptions_list, startsWithMarker_mk, if_true,
    disablePayload_mk, hpl, hcs]

theorem find_cons_ok_err (pl : String → Except String Collaborator)
    (u : User) (rest : List Char) (t : Int) (cs : List Comment)
    (col : Collaborator) (e : String)
    (hpl : pl u.login = .ok col) (hcs : find_exemptions_list pl cs = .error e) :
    find_exemptions_list pl (⟨u, ⟨marker ++ rest⟩, t⟩ :: cs) = .error e := by
  simp only [find_exemptions_list, startsWithMarker_mk, if_true,
    disablePayload_mk, hpl, hcs]

theorem find_append (pl : String → Except String Collaborator)
    (ds : List Comment) : ∀ cs : List Comment,
    find_exemptions_list pl (cs ++ ds) =
      match find_exemptions_list pl cs with
      | .error e => .error e
      | .ok xs =>
        match find_exemptions_list pl ds with
        | .error e => .error e
        | .ok ys => .ok (xs ++ ys) := by
  intro cs
  induction cs with
  | nil =>
    simp only [List.nil_append]
    show _ = match (Except.ok [] : Except String (List String)) with
      | .error e => .error e
      | .ok xs => match find_exemptions_list pl ds with
        | .error e => .error e
        | .ok ys => .ok (xs ++ ys)
    cases find_exemptions_list pl ds with
    | error e => rfl
    | ok ys => simp [find_exemptions_list]
  | cons c cs ih =>
    simp only [List.cons_append, find_exemptions_list]
    cases hsw : startsWithMarker c.body with
    | false =>
      simp only [Bool.false_eq_true, if_false]
      exact ih
    | true =>
      simp only [if_true]
      cases hdp : disablePayload c.body with
      | none => exact ih
      | some payload =>
        cases hpl : pl c.user.login with
        | error e => rfl
        | ok col =>
          simp only [List.append_eq, ih]
          cases hcs : find_exemptions_list pl cs with
          | error e => rfl
          | ok xs =>
            cases hds : find_exemptions_list pl ds with
            | error e => rfl
            | ok ys =>
              by_cases hperm : col.permission = Permission.Admin <;> simp [hperm]

theorem find_all_nonadmin (pl : String → Except String Collaborator) :
    ∀ cs : List Comment,
    (∀ c ∈ cs, ∃ col, pl c.user.login = .ok col ∧ col.permission ≠ Permission.Admin) →
    find_exemptions_list pl cs = .ok [] := by
  intro cs
  induction cs with
  | nil => intro _; rfl
  | cons c cs ih =>
    intro h
    have hcs : find_exemptions_list pl cs = .ok [] :=
      ih (fun c hm => h c (List.mem_cons_of_mem _ hm))
    cases hsw : startsWithMarker c.body with
    | false => rw [find_cons_skip pl c cs hsw, hcs]
    | true =>
      obtain ⟨rest, hb⟩ := startsWith_decomp c.body hsw
      obtain ⟨col, hpl, hna⟩ := h c (List.mem_cons_self c cs)
      have hc : c = ⟨c.user, ⟨marker ++ rest⟩, c.created_at⟩ := by
        cases c with
        | mk u b t => simp only [] at hb ⊢; rw [hb]
      rw [hc]
      rw [find_cons_ok pl c.user rest c.created_at cs col [] hpl hcs]
      simp [hna]

/-- A directive comment whose author lookup fails forces `find_exemptions_list`
into an error (the first such failure along the comment list wins). -/
theorem find_err_of_bad_lookup (pl : String → Except String Collaborator) :
    ∀ cs : List Comment, (∃ c ∈ cs, startsWithMarker c.body = true ∧
      ∃ e, pl c.user.login = .error e) →
    ∃ e2, find_exemptions_list pl cs = .error e2 := by
  intro cs
  induction cs with
  | nil => rintro ⟨c, hm, _⟩; exact absurd hm (List.not_mem_nil c)
  | cons c cs ih =>
    rintro ⟨c0, hm, hsw0, e0, hpl0⟩
    rcases List.mem_cons.mp hm with hc0 | hmem
    · subst hc0
      obtain ⟨rest, hb⟩ := startsWith_decomp c0.body hsw0
      have hc : c0 = ⟨c0.user, ⟨marker ++ rest⟩, c0.created_at⟩ := by
        cases c0 with
        | mk u b t => simp only [] at hb ⊢; rw [hb]
      rw [hc]
      exact ⟨e0, find_cons_err pl c0.user rest c0.created_at cs e0 hpl0⟩
    · have hcs := ih ⟨c0, hmem, hsw0, e0, hpl0⟩
      obtain ⟨e2, he2⟩ := hcs
      cases hsw : startsWithMarker c.body with
      | false => exact ⟨e2, by rw [find_cons_skip pl c cs hsw]; exact he2⟩
      | true =>
        obtain ⟨rest, hb⟩ := startsWith_decomp c.body hsw
        have hc : c = ⟨c.user, ⟨marker ++ rest⟩, c.created_at⟩ := by
          cases c with
          | mk u b t => simp only [] at hb ⊢; rw [hb]
        rw [hc]
        cases hpl : pl c.user.login with
        | error e => exact ⟨e, find_cons_err pl c.user rest c.created_at cs e hpl⟩
        | ok col =>
          exact ⟨e2, find_cons_ok_err pl c.user rest c.created_at cs col e2 hpl he2⟩

/-! ## General lemmas about `evalRules` and `validate_pull_request` -/

theorem evalRules_ok (ev : String → PullRequest → Except String Bool)
    (repo : Repo) (pr : PullRequest) : ∀ rs : List Rule,
    (∀ r ∈ rs, ∃ b, ev r.expression pr = .ok b) →
    evalRules ev repo pr rs = .ok ((rs.filter (evalFalse ev pr)).map failureMessage) := by
  intro rs
  induction rs with
  | nil => intro _; rfl
  | cons rule rs ih =>
    intro h
    obtain ⟨b, hb⟩ := h rule (List.mem_cons_self rule rs)
    have hrs := ih (fun r hm => h r (List.mem_cons_of_mem _ hm))
    simp only [evalRules, hb, hrs]
    cases b with
    | true =>
      have hf : evalFalse ev pr rule = false := by
        unfold evalFalse
        rw [hb]
      simp [List.filter_cons, hf]
    | false =>
      have hf : evalFalse ev pr rule = true := by
        unfold evalFalse
        rw [hb]
      simp [List.filter_cons, hf]

theorem evalRules_error (ev : String → PullRequest → Except String Bool)
    (repo : Repo) (pr : PullRequest) (rule : Rule) (rs2 : List Rule) (e : String)
    (he : ev rule.expression pr = .error e) : ∀ rs1 : List Rule,
    (∀ r ∈ rs1, ∃ b, ev r.expression pr = .ok b) →
    evalRules ev repo pr (rs1 ++ rule :: rs2) =
      .error (.expression (ruleContext repo rule) e) := by
  intro rs1
  induction rs1 with
  | nil =>
    intro _
    simp only [List.nil_append, evalRules, he]
  | cons r0 rs1 ih =>
    intro h
    obtain ⟨b, hb⟩ := h r0 (List.mem_cons_self r0 rs1)
    have hrs := ih (fun r hm => h r (List.mem_cons_of_mem _ hm))
    simp only [List.cons_append, evalRules, hb, List.append_eq, hrs]

theorem evalRules_congr (ev ev2 : String → PullRequest → Except String Bool)
    (repo : Repo) (pr pr2 : PullRequest) : ∀ rs : List Rule,
    (∀ r ∈ rs, ev r.expression pr = ev2 r.expression pr2) →
    evalRules ev repo pr rs = evalRules ev2 repo pr2 rs := by
  intro rs
  induction rs with
  | nil => intro _; rfl
  | cons rule rs ih =>
    intro h
    have hh := h rule (List.mem_cons_self rule rs)
    have hrs := ih (fun r hm => h r (List.mem_cons_of_mem _ hm))
    simp only [evalRules, ← hh, hrs]

theorem validate_eq_of_ok (pl : String → Except String Collaborator)
    (ev : String → PullRequest → Except String Bool) (repo : Repo)
    (pr : PullRequest) (ex : List String)
    (hf : find_exemptions pl pr = .ok ex) :
    validate_pull_request pl ev repo pr =
      evalRules ev repo pr
        (repo.rules.filter (fun rule => !ex.contains rule.name)) := by
  simp [validate_pull_request, hf]

theorem comment_decomp (c : Comment) (h : startsWithMarker c.body = true) :
    ∃ rest, c = ⟨c.user, ⟨marker ++ rest⟩, c.created_at⟩ := by
  obtain ⟨rest, hb⟩ := startsWith_decomp c.body h
  refine ⟨rest, ?_⟩
  cases c with
  | mk u b t => simp only [] at hb ⊢; rw [hb]

/-! ## Concrete fixtures for witnesses and counterexamples -/

/-- Example rule `ci`. -/
def ruleCI : Rule := ⟨"ci", "needs commits", "commits.size>0"⟩

/-- Example rule `desc`. -/
def ruleDesc : Rule := ⟨"desc", "needs body", "body!=empty"⟩

/-- Repository configured with the single rule `ci`. -/
def repoCI : Repo := ⟨"coreos", "tailor", [ruleCI]⟩

/-- Repository configured with the rules `ci` and `desc`, in that order. -/
def repoCI2 : Repo := ⟨"coreos", "tailor", [ruleCI, ruleDesc]⟩

/-! ## Claims -/

/-- C1 counterexample: the comment body `"please tailor disable ci"` contains
the marker phrase, yet the resolver neither consults the permission endpoint
(a lookup that would fail raises no error) nor records an exemption even for
an admin author — containment alone does not trigger directive processing. -/
theorem C1_counterexample :
    (∃ a b, ("please tailor disable ci").data = a ++ marker ++ b) ∧
    find_exemptions plBoom (prWith [⟨⟨"alice"⟩, "please tailor disable ci", 0⟩]) =
      .ok [] ∧
    find_exemptions plAdmin (prWith [⟨⟨"alice"⟩, "please tailor disable ci", 0⟩]) =
      .ok [] :=
  ⟨⟨"please ".data, " ci".data, by decide⟩, rfl, rfl⟩

/-- C1 (amended): a comment is treated as a disable directive exactly when
its body STARTS with the literal marker phrase "tailor disable" (Rust
`starts_with`, line 124), not when it merely contains it; a non-leading
marker leaves the comment entirely unprocessed, while a leading marker does
trigger payload extraction and the author's authority check (so a failing
lookup is propagated). -/
theorem C1_only_leading_marker (pl : String → Except String Collaborator)
    (c : Comment) (cs : List Comment) :
    (startsWithMarker c.body = false →
      find_exemptions_list pl (c :: cs) = find_exemptions_list pl cs) ∧
    (startsWithMarker c.body = true → ∀ e, pl c.user.login = .error e →
      find_exemptions_list pl (c :: cs) = .error e) := by
  constructor
  · intro h
    exact find_cons_skip pl c cs h
  · intro h e hpl
    obtain ⟨rest, hc⟩ := comment_decomp c h
    rw [hc]
    exact find_cons_err pl c.user rest c.created_at cs e hpl

/-- C1 witness: instantiates `C1_only_leading_marker` at concrete comments:
a mid-body marker is skipped even though every lookup fails, and a leading
marker propagates the lookup failure. -/
theorem C1_witness :
    find_exemptions_list plBoom [⟨⟨"alice"⟩, "say tailor disable ci", 0⟩] = .ok [] ∧
    find_exemptions_list plBoom [⟨⟨"bob"⟩, "tailor disable ci", 0⟩] = .error "boom" := by
  constructor
  · have h := (C1_only_leading_marker plBoom ⟨⟨"alice"⟩, "say tailor disable ci", 0⟩ []).1
      (by decide)
    exact h.trans rfl
  · exact (C1_only_leading_marker plBoom ⟨⟨"bob"⟩, "tailor disable ci", 0⟩ []).2
      (by decide) "boom" rfl

/-- C2 counterexample: for the body
`"tailor disable foo tailor disable bar"` the recorded exemption is `"foo"`
(the segment between the first and the second occurrence of the marker),
not `"foo tailor disable bar"` (everything after the first occurrence), so
the payload is NOT everything after the first occurrence of the marker. -/
theorem C2_counterexample :
    find_exemptions plAdmin
      (prWith [⟨⟨"alice"⟩, "tailor disable foo tailor disable bar", 0⟩]) =
      .ok ["foo"] ∧
    ("foo" : String) ≠ "foo tailor disable bar" :=
  ⟨rfl, by decide⟩

/-- C2 (amended): for a directive comment (body starting with the marker,
per the corrected C1) from an admin, the recorded rule name is the trimmed
text strictly between the first occurrence of the marker and the next
occurrence (Rust `split` yields the segment up to the next non-overlapping
match), or up to the end of the body when the marker does not occur again
— `takeUntilMarker rest = rest` in that case. -/
theorem C2_payload_to_next_marker (pl : String → Except String Collaborator)
    (u : User) (rest : List Char) (t : Int) (cs : List Comment) (xs : List String)
    (hpl : pl u.login = .ok ⟨Permission.Admin⟩)
    (hcs : find_exemptions_list pl cs = .ok xs) :
    find_exemptions_list pl (⟨u, ⟨marker ++ rest⟩, t⟩ :: cs) =
      .ok (String.mk (trimL (takeUntilMarker rest)) :: xs) ∧
    (containsMarkerL rest = false → takeUntilMarker rest = rest) := by
  constructor
  · rw [find_cons_ok pl u rest t cs ⟨Permission.Admin⟩ xs hpl hcs]
    rfl
  · exact takeUntil_of_no_marker rest

/-- C2 witness: instantiates `C2_payload_to_next_marker` at a concrete
single-occurrence directive: the whole trailing text, trimmed, is the
exemption. -/
theorem C2_witness :
    find_exemptions_list plAdmin [⟨⟨"alice"⟩, "tailor disable  ci with spaces ", 0⟩] =
      .ok ["ci with spaces"] := by
  have h := (C2_payload_to_next_marker plAdmin ⟨"alice"⟩ "  ci with spaces ".data 0
    [] [] rfl rfl).1
  exact h

/-- C3 counterexample: for the body `"tailor disable"` (marker present, no
payload text at all) the resolver does NOT skip the comment before the
permission lookup: a failing lookup aborts resolution with its error, and
an admin author records the empty string as an exemption entry. -/
theorem C3_counterexample :
    find_exemptions plBoom (prWith [⟨⟨"alice"⟩, "tailor disable", 0⟩]) =
      .error "boom" ∧
    find_exemptions plAdmin (prWith [⟨⟨"alice"⟩, "tailor disable", 0⟩]) =
      .ok [""] :=
  ⟨rfl, rfl⟩

/-- C3 (amended): a comment whose body is the marker followed only by
whitespace (possibly nothing) still has a payload — Rust `split` always
yields a second element when the body starts with the separator — so the
author's permission IS looked up: a failing lookup aborts resolution, an
admin author adds the empty string to the exemption set, and a non-admin
author has no effect. -/
theorem C3_empty_payload_not_skipped (pl : String → Except String Collaborator)
    (u : User) (ws : List Char) (t : Int) (cs : List Comment)
    (hws : ∀ ch ∈ ws, ch.isWhitespace = true) :
    (∀ e, pl u.login = .error e →
      find_exemptions_list pl (⟨u, ⟨marker ++ ws⟩, t⟩ :: cs) = .error e) ∧
    (∀ xs, pl u.login = .ok ⟨Permission.Admin⟩ →
      find_exemptions_list pl cs = .ok xs →
      find_exemptions_list pl (⟨u, ⟨marker ++ ws⟩, t⟩ :: cs) = .ok ("" :: xs)) ∧
    (∀ col, pl u.login = .ok col → col.permission ≠ Permission.Admin →
      find_exemptions_list pl (⟨u, ⟨marker ++ ws⟩, t⟩ :: cs) =
        find_exemptions_list pl cs) := by
  have htu : takeUntilMarker ws = ws :=
    takeUntil_of_no_marker ws (no_marker_of_whitespace ws hws)
  have htr : trimL (takeUntilMarker ws) = [] := by
    rw [htu]
    exact trimL_of_whitespace ws hws
  refine ⟨?_, ?_, ?_⟩
  · intro e hpl
    exact find_cons_err pl u ws t cs e hpl
  · intro xs hpl hcs
    rw [find_cons_ok pl u ws t cs ⟨Permission.Admin⟩ xs hpl hcs, htr]
    rfl
  · intro col hpl hna
    cases hcs : find_exemptions_list pl cs with
    | error e => exact find_cons_ok_err pl u ws t cs col e hpl hcs
    | ok xs =>
      rw [find_cons_ok pl u ws t cs col xs hpl hcs]
      simp [hna]

/-- C3 witness: instantiates `C3_empty_payload_not_skipped` at the body
`"tailor disable   "`: the lookup failure surfaces, an admin records `""`,
and a read-permission author changes nothing. -/
theorem C3_witness :
    find_exemptions_list plBoom [⟨⟨"a"⟩, "tailor disable   ", 0⟩] = .error "boom" ∧
    find_exemptions_list plAdmin [⟨⟨"a"⟩, "tailor disable   ", 0⟩] = .ok [""] ∧
    find_exemptions_list plRead [⟨⟨"a"⟩, "tailor disable   ", 0⟩] = .ok [] := by
  refine ⟨?_, ?_, ?_⟩
  · exact (C3_empty_payload_not_skipped plBoom ⟨"a"⟩ "   ".data 0 []
      (by decide)).1 "boom" rfl
  · exact (C3_empty_payload_not_skipped plAdmin ⟨"a"⟩ "   ".data 0 []
      (by decide)).2.1 [] rfl rfl
  · have h := (C3_empty_payload_not_skipped plRead ⟨"a"⟩ "   ".data 0 []
      (by decide)).2.2 ⟨Permission.Read⟩ rfl (by decide)
    exact h.trans rfl

/-- C4: the permission looked up is the comment author's (the result depends
on the PR only through its comment list, never its author); the trimmed rule
name is recorded iff that author's permission is exactly `Admin`; and when
every comment author is a non-admin whose lookup succeeds, no exemption is
produced, so every rule whose expression is `false` still contributes its
failure message. -/
theorem C4_admin_exact :
    (∀ (pl : String → Except String Collaborator) (u : User) (rest : List Char)
       (t : Int) (cs : List Comment) (col : Collaborator) (xs : List String),
       pl u.login = .ok col → find_exemptions_list pl cs = .ok xs →
       find_exemptions_list pl (⟨u, ⟨marker ++ rest⟩, t⟩ :: cs) =
         .ok (if col.permission = Permission.Admin then
                String.mk (trimL (takeUntilMarker rest)) :: xs else xs)) ∧
    (∀ (pl : String → Except String Collaborator) (pr pr2 : PullRequest),
       pr.comments = pr2.comments →
       find_exemptions pl pr = find_exemptions pl pr2) ∧
    (∀ (pl : String → Except String Collaborator)
       (ev : String → PullRequest → Except String Bool)
       (repo : Repo) (pr : PullRequest),
       (∀ c ∈ pr.comments, ∃ col, pl c.user.login = .ok col ∧
          col.permission ≠ Permission.Admin) →
       (∀ r ∈ repo.rules, ∃ b, ev r.expression pr = .ok b) →
       ∃ fs, validate_pull_request pl ev repo pr = .ok fs ∧
         ∀ r ∈ repo.rules, ev r.expression pr = .ok false →
           failureMessage r ∈ fs) := by
  refine ⟨?_, ?_, ?_⟩
  · intro pl u rest t cs col xs hpl hcs
    exact find_cons_ok pl u rest t cs col xs hpl hcs
  · intro pl pr pr2 h
    unfold find_exemptions
    rw [h]
  · intro pl ev repo pr hna hok
    have hex : find_exemptions pl pr = .ok [] :=
      find_all_nonadmin pl pr.comments hna
    have hval := validate_eq_of_ok pl ev repo pr [] hex
    have hfilter : repo.rules.filter
        (fun rule => !([] : List String).contains rule.name) = repo.rules := by
      simp
    rw [hfilter] at hval
    rw [evalRules_ok ev repo pr repo.rules hok] at hval
    refine ⟨_, hval, ?_⟩
    intro r hr hfalse
    have hf : evalFalse ev pr r = true := by
      unfold evalFalse
      rw [hfalse]
    exact List.mem_map_of_mem failureMessage (List.mem_filter.mpr ⟨hr, hf⟩)

/-- C4 witness: instantiates `C4_admin_exact`: a read-permission author's
directive records nothing, and the `ci` rule, whose expression is false,
still appears in the failure list. -/
theorem C4_witness :
    find_exemptions_list plRead [⟨⟨"reader"⟩, "tailor disable ci", 0⟩] = .ok [] ∧
    (∃ fs, validate_pull_request plRead (fun _ _ => .ok false) repoCI
        (prWith [⟨⟨"reader"⟩, "tailor disable ci", 0⟩]) = .ok fs ∧
      "Failed ci (needs commits)" ∈ fs) := by
  constructor
  · have h := C4_admin_exact.1 plRead ⟨"reader"⟩ " ci".data 0 []
      ⟨Permission.Read⟩ [] rfl rfl
    exact h.trans rfl
  · obtain ⟨fs, hfs, hmem⟩ := C4_admin_exact.2.2 plRead (fun _ _ => .ok false)
      repoCI (prWith [⟨⟨"reader"⟩, "tailor disable ci", 0⟩])
      (fun c hm => ⟨⟨Permission.Read⟩, rfl, by decide⟩)
      (fun r hr => ⟨false, rfl⟩)
    exact ⟨fs, hfs, hmem ruleCI (List.mem_singleton.mpr rfl) rfl⟩

/-- C5: a permission-lookup failure during exemption resolution makes
`validate_pull_request` fail with that same error message (wrapped in the
authority provenance), returning no failure list; in particular the presence
of any directive comment whose author lookup fails forces the whole run to
abort. -/
theorem C5_authority_error_propagates :
    (∀ (pl : String → Except String Collaborator)
       (ev : String → PullRequest → Except String Bool)
       (repo : Repo) (pr : PullRequest) (e : String),
       find_exemptions pl pr = .error e →
       validate_pull_request pl ev repo pr = .error (.authority e)) ∧
    (∀ (pl : String → Except String Collaborator)
       (ev : String → PullRequest → Except String Bool)
       (repo : Repo) (pr : PullRequest),
       (∃ c ∈ pr.comments, startsWithMarker c.body = true ∧
          ∃ e, pl c.user.login = .error e) →
       ∃ e2, validate_pull_request pl ev repo pr = .error (.authority e2)) := by
  constructor
  · intro pl ev repo pr e h
    simp [validate_pull_request, h]
  · intro pl ev repo pr h
    obtain ⟨e2, he2⟩ := find_err_of_bad_lookup pl pr.comments h
    exact ⟨e2, by simp [validate_pull_request, find_exemptions, he2]⟩

/-- C5 witness: instantiates `C5_authority_error_propagates` with the
always-failing lookup: the run aborts with the lookup's error and returns
no failure list. -/
theorem C5_witness :
    validate_pull_request plBoom (fun _ _ => .ok true) repoCI
      (prWith [⟨⟨"a"⟩, "tailor disable ci", 0⟩]) = .error (.authority "boom") :=
  C5_authority_error_propagates.1 plBoom (fun _ _ => .ok true) repoCI
    (prWith [⟨⟨"a"⟩, "tailor disable ci", 0⟩]) "boom" rfl

/-- C6: over the non-exempted rules, exactly the rules whose expression
evaluates to `false` contribute, in order, the message
`"Failed {name} ({description})"`; if every rule evaluates `true` the
result is the empty list. -/
theorem C6_failure_messages (pl : String → Except String Collaborator)
    (ev : String → PullRequest → Except String Bool) (repo : Repo)
    (pr : PullRequest) (ex : List String)
    (hex : find_exemptions pl pr = .ok ex) :
    ((∀ r ∈ repo.rules.filter (fun rule => !ex.contains rule.name),
        ∃ b, ev r.expression pr = .ok b) →
      validate_pull_request pl ev repo pr =
        .ok (((repo.rules.filter (fun rule => !ex.contains rule.name)).filter
              (evalFalse ev pr)).map failureMessage)) ∧
    ((∀ r ∈ repo.rules, ev r.expression pr = .ok true) →
      validate_pull_request pl ev repo pr = .ok []) := by
  constructor
  · intro h
    rw [validate_eq_of_ok pl ev repo pr ex hex]
    exact evalRules_ok ev repo pr _ h
  · intro h
    rw [validate_eq_of_ok pl ev repo pr ex hex]
    have hall : ∀ r ∈ repo.rules.filter (fun rule => !ex.contains rule.name),
        ∃ b, ev r.expression pr = .ok b :=
      fun r hr => ⟨true, h r (List.mem_filter.mp hr).1⟩
    rw [evalRules_ok ev repo pr _ hall]
    have hnil : (repo.rules.filter (fun rule => !ex.contains rule.name)).filter
        (evalFalse ev pr) = [] := by
      rw [List.filter_eq_nil_iff]
      intro r hr
      have hb := h r (List.mem_filter.mp hr).1
      simp [evalFalse, hb]
    rw [hnil]
    rfl

/-- C6 witness: instantiates `C6_failure_messages` on the spec's own
example: rules `ci` then `desc`, both false, `ci` exempted by an admin —
the single failure is `"Failed desc (needs body)"`. -/
theorem C6_witness :
    validate_pull_request plAdmin (fun _ _ => .ok false) repoCI2
      (prWith [⟨⟨"boss"⟩, "tailor disable ci", 0⟩]) =
      .ok ["Failed desc (needs body)"] := by
  have h := (C6_failure_messages plAdmin (fun _ _ => .ok false) repoCI2
    (prWith [⟨⟨"boss"⟩, "tailor disable ci", 0⟩]) ["ci"] rfl).1
    (fun r hr => ⟨false, rfl⟩)
  exact h.trans rfl

/-- C7: the failure list is the image under the failure-message format of a
sublist of the configured rule list (hence in configured order, never
reordered), containing no exempted rule. -/
theorem C7_order_preserved (pl : String → Except String Collaborator)
    (ev : String → PullRequest → Except String Bool) (repo : Repo)
    (pr : PullRequest) (ex : List String)
    (hex : find_exemptions pl pr = .ok ex)
    (hok : ∀ r ∈ repo.rules, ex.contains r.name = false →
      ∃ b, ev r.expression pr = .ok b) :
    ∃ kept : List Rule, List.Sublist kept repo.rules ∧
      (∀ r ∈ kept, ex.contains r.name = false) ∧
      validate_pull_request pl ev repo pr = .ok (kept.map failureMessage) := by
  refine ⟨(repo.rules.filter (fun rule => !ex.contains rule.name)).filter
    (evalFalse ev pr), ?_, ?_, ?_⟩
  · exact (List.filter_sublist _).trans (List.filter_sublist _)
  · intro r hr
    have h1 := (List.mem_filter.mp hr).1
    have h2 := (List.mem_filter.mp h1).2
    simpa using h2
  · rw [validate_eq_of_ok pl ev repo pr ex hex]
    apply evalRules_ok
    intro r hr
    obtain ⟨hm, hc⟩ := List.mem_filter.mp hr
    exact hok r hm (by simpa using hc)

/-- Repository with three rules `a`, `b`, `c`, in that order. -/
def repoABC : Repo :=
  ⟨"coreos", "tailor", [⟨"a", "da", "ea"⟩, ⟨"b", "db", "eb"⟩, ⟨"c", "dc", "ec"⟩]⟩

/-- C7 witness: instantiates `C7_order_preserved` with rules `a`, `b`, `c`
where `b` is exempted and every expression is false. -/
theorem C7_witness :
    ∃ kept : List Rule, List.Sublist kept repoABC.rules ∧
      (∀ r ∈ kept, (["b"] : List String).contains r.name = false) ∧
      validate_pull_request plAdmin (fun _ _ => .ok false) repoABC
        (prWith [⟨⟨"boss"⟩, "tailor disable b", 0⟩]) =
        .ok (kept.map failureMessage) :=
  C7_order_preserved plAdmin (fun _ _ => .ok false) repoABC
    (prWith [⟨⟨"boss"⟩, "tailor disable b", 0⟩]) ["b"] rfl
    (fun _ _ _ => ⟨false, rfl⟩)

/-- C8: an expression-evaluation failure on a non-exempted rule aborts the
whole run with an error whose context names the failing rule and the
repository as `Failed to run "{name}" from "{owner}/{repo}"`. -/
theorem C8_expression_error_context (pl : String → Except String Collaborator)
    (ev : String → PullRequest → Except String Bool) (repo : Repo)
    (pr : PullRequest) (ex : List String) (rs1 rs2 : List Rule) (rule : Rule)
    (e : String)
    (hex : find_exemptions pl pr = .ok ex)
    (hsplit : repo.rules.filter (fun r => !ex.contains r.name) =
      rs1 ++ rule :: rs2)
    (hok : ∀ r ∈ rs1, ∃ b, ev r.expression pr = .ok b)
    (he : ev rule.expression pr = .error e) :
    validate_pull_request pl ev repo pr =
      .error (.expression
        ("Failed to run \"" ++ rule.name ++ "\" from \"" ++ repo.owner ++ "/" ++
          repo.repo ++ "\"") e) := by
  rw [validate_eq_of_ok pl ev repo pr ex hex, hsplit]
  exact evalRules_error ev repo pr rule rs2 e he rs1 hok

/-- C8 witness: instantiates `C8_expression_error_context` with a broken
expression on the only rule: the run aborts with the fully-formatted
context string. -/
theorem C8_witness :
    validate_pull_request plAdmin (fun _ _ => .error "type mismatch") repoCI
      (prWith []) =
      .error (.expression "Failed to run \"ci\" from \"coreos/tailor\""
        "type mismatch") :=
  C8_expression_error_context plAdmin (fun _ _ => .error "type mismatch")
    repoCI (prWith []) [] [] [] ruleCI "type mismatch" rfl rfl
    (fun r hr => absurd hr (List.not_mem_nil r)) rfl

/-- C9: exemptions are idempotent and additive: an admin directive whose
rule name is already exempted yields an exemption list with the same
membership; validation results depend on the exemption list only through
name membership (given unchanged expression outcomes); and processing more
comments never removes an exemption recorded earlier. -/
theorem C9_duplicates_idempotent :
    (∀ (pl : String → Except String Collaborator) (u : User) (rest : List Char)
       (t : Int) (cs : List Comment) (xs : List String),
       pl u.login = .ok ⟨Permission.Admin⟩ →
       find_exemptions_list pl cs = .ok xs →
       String.mk (trimL (takeUntilMarker rest)) ∈ xs →
       ∃ ys, find_exemptions_list pl (⟨u, ⟨marker ++ rest⟩, t⟩ :: cs) = .ok ys ∧
         ∀ n : String, ys.contains n = xs.contains n) ∧
    (∀ (pl : String → Except String Collaborator)
       (ev : String → PullRequest → Except String Bool)
       (repo : Repo) (pr pr2 : PullRequest) (ex ex2 : List String),
       find_exemptions pl pr = .ok ex →
       find_exemptions pl pr2 = .ok ex2 →
       (∀ n : String, ex.contains n = ex2.contains n) →
       (∀ r ∈ repo.rules, ev r.expression pr = ev r.expression pr2) →
       validate_pull_request pl ev repo pr = validate_pull_request pl ev repo pr2) ∧
    (∀ (pl : String → Except String Collaborator) (cs ds : List Comment)
       (xs ys : List String),
       find_exemptions_list pl cs = .ok xs →
       find_exemptions_list pl (cs ++ ds) = .ok ys →
       ∀ n ∈ xs, n ∈ ys) := by
  refine ⟨?_, ?_, ?_⟩
  · intro pl u rest t cs xs hpl hcs hmem
    refine ⟨String.mk (trimL (takeUntilMarker rest)) :: xs,
      (find_cons_ok pl u rest t cs ⟨Permission.Admin⟩ xs hpl hcs).trans rfl, ?_⟩
    intro n
    rw [List.contains_cons]
    cases hbeq : n == String.mk (trimL (takeUntilMarker rest)) with
    | false => simp
    | true =>
      have hn : n = String.mk (trimL (takeUntilMarker rest)) := eq_of_beq hbeq
      have hx : xs.contains n = true := List.elem_iff.mpr (by rw [hn]; exact hmem)
      rw [hx]
      decide
  · intro pl ev repo pr pr2 ex ex2 hex hex2 hcont hev
    rw [validate_eq_of_ok pl ev repo pr ex hex,
        validate_eq_of_ok pl ev repo pr2 ex2 hex2]
    have hfeq : repo.rules.filter (fun rule => !ex.contains rule.name) =
        repo.rules.filter (fun rule => !ex2.contains rule.name) :=
      List.filter_congr (fun r hr => by
        show (!ex.contains r.name) = (!ex2.contains r.name)
        rw [hcont r.name])
    rw [← hfeq]
    apply evalRules_congr
    intro r hr
    exact hev r (List.mem_filter.mp hr).1
  · intro pl cs ds xs ys hcs hcd n hn
    have h := find_append pl ds cs
    rw [hcd, hcs] at h
    cases hds : find_exemptions_list pl ds with
    | error e =>
      rw [hds] at h
      simp at h
    | ok ys2 =>
      rw [hds] at h
      simp at h
      rw [h]
      exact List.mem_append_left ys2 hn

/-- Admin comment disabling the rule `ci`. -/
def cDisableCI : Comment := ⟨⟨"boss"⟩, "tailor disable ci", 0⟩

/-- C9 witness: instantiates `C9_duplicates_idempotent` at two identical
admin directives for `ci`: the duplicate collapses under membership, the
two runs validate identically, and the first exemption survives. -/
theorem C9_witness :
    (∃ ys, find_exemptions_list plAdmin [cDisableCI, cDisableCI] = .ok ys ∧
       ∀ n : String, ys.contains n = (["ci"] : List String).contains n) ∧
    validate_pull_request plAdmin (fun _ _ => .ok false) repoCI2
      (prWith [cDisableCI, cDisableCI]) =
      validate_pull_request plAdmin (fun _ _ => .ok false) repoCI2
        (prWith [cDisableCI]) ∧
    (∀ n ∈ (["ci"] : List String), n ∈ (["ci", "ci"] : List String)) := by
  refine ⟨?_, ?_, ?_⟩
  · exact C9_duplicates_idempotent.1 plAdmin ⟨"boss"⟩ " ci".data 0
      [cDisableCI] ["ci"] rfl rfl (by decide)
  · exact C9_duplicates_idempotent.2.1 plAdmin (fun _ _ => .ok false) repoCI2
      (prWith [cDisableCI, cDisableCI]) (prWith [cDisableCI]) ["ci", "ci"] ["ci"]
      rfl rfl
      (by
        intro n
        simp only [List.contains_cons]
        cases hb : n == "ci" <;> simp [hb])
      (fun r hr => rfl)
  · exact C9_duplicates_idempotent.2.2 plAdmin [cDisableCI] [cDisableCI]
      ["ci"] ["ci", "ci"] rfl rfl

/-- C10: validation results do not depend on the expression oracle at
exempted rules (they are filtered out before evaluation, so they are never
evaluated), and when every NON-exempted rule evaluates successfully the run
returns a failure list even if exempted rules' expressions are broken. -/
theorem C10_exempt_never_evaluated :
    (∀ (pl : String → Except String Collaborator)
       (ev ev2 : String → PullRequest → Except String Bool)
       (repo : Repo) (pr : PullRequest) (ex : List String),
       find_exemptions pl pr = .ok ex →
       (∀ r ∈ repo.rules, ex.contains r.name = false →
          ev r.expression pr = ev2 r.expression pr) →
       validate_pull_request pl ev repo pr =
         validate_pull_request pl ev2 repo pr) ∧
    (∀ (pl : String → Except String Collaborator)
       (ev : String → PullRequest → Except String Bool)
       (repo : Repo) (pr : PullRequest) (ex : List String),
       find_exemptions pl pr = .ok ex →
       (∀ r ∈ repo.rules, ex.contains r.name = false →
          ∃ b, ev r.expression pr = .ok b) →
       ∃ fs, validate_pull_request pl ev repo pr = .ok fs) := by
  constructor
  · intro pl ev ev2 repo pr ex hex hagree
    rw [validate_eq_of_ok pl ev repo pr ex hex,
        validate_eq_of_ok pl ev2 repo pr ex hex]
    apply evalRules_congr
    intro r hr
    obtain ⟨hm, hc⟩ := List.mem_filter.mp hr
    exact hagree r hm (by simpa using hc)
  · intro pl ev repo pr ex hex hok
    rw [validate_eq_of_ok pl ev repo pr ex hex]
    refine ⟨_, evalRules_ok ev repo pr _ ?_⟩
    intro r hr
    obtain ⟨hm, hc⟩ := List.mem_filter.mp hr
    exact hok r hm (by simpa using hc)

/-- C10 witness: instantiates `C10_exempt_never_evaluated`: with the only
rule `ci` exempted by an admin, a permanently-failing expression oracle
still yields a successful (empty-failure) run, identical to the run with a
healthy oracle. -/
theorem C10_witness :
    (∃ fs, validate_pull_request plAdmin (fun _ _ => .error "broken") repoCI
        (prWith [cDisableCI]) = .ok fs) ∧
    validate_pull_request plAdmin (fun _ _ => .error "broken") repoCI
      (prWith [cDisableCI]) =
      validate_pull_request plAdmin (fun _ _ => .ok true) repoCI
        (prWith [cDisableCI]) := by
  constructor
  · exact C10_exempt_never_evaluated.2 plAdmin (fun _ _ => .error "broken")
      repoCI (prWith [cDisableCI]) ["ci"] rfl
      (fun r hr hc => by
        rcases List.mem_singleton.mp hr with rfl
        exact absurd hc (by decide))
  · exact C10_exempt_never_evaluated.1 plAdmin (fun _ _ => .error "broken")
      (fun _ _ => .ok true) repoCI (prWith [cDisableCI]) ["ci"] rfl
      (fun r hr hc => by
        rcases List.mem_singleton.mp hr with rfl
        exact absurd hc (by decide))

end Tailor
